import Mathlib

/-!
Verification development for the transcript-combining script
(`combine-pdf.py`).  The script wraps raw transcript text against a
measured page width, flows the wrapped lines through a cursor-driven
pagination loop, and records completed episode numbers in an append-only
ledger file.  Strings are modelled as lists of characters, the ReportLab
`stringWidth` measurer as a per-character width function summed over the
string, and the ReportLab canvas as a trace of drawing actions.
-/

/-- Strings of the source program, modelled as lists of characters. -/
abbrev Str := List Char

/-- Whitespace characters recognised by Python's `str.split()` and
`str.strip()` (ASCII fragment: space, tab, newline, carriage return,
vertical tab, form feed). -/
def isSpaceChar (c : Char) : Bool :=
  c == ' ' || c == '\t' || c == '\n' || c == '\r' || c == '\x0b' || c == '\x0c'

/-- Python `text.split('\n')` (line 21 of the source): split on each
newline, keeping empty segments, so that `""` yields `[""]`. -/
def splitNl : Str → List Str
  | [] => [[]]
  | c :: cs =>
    if c = '\n' then [] :: splitNl cs
    else
      match splitNl cs with
      | [] => [[c]]
      | s :: ss => (c :: s) :: ss

/-- Python `line.split()` (line 26 of the source): split on runs of
whitespace, dropping empty tokens. -/
def pyWords : Str → List Str
  | [] => []
  | c :: cs =>
    if isSpaceChar c then pyWords cs
    else
      match cs with
      | [] => [[c]]
      | d :: _ =>
        if isSpaceChar d then [c] :: pyWords cs
        else
          match pyWords cs with
          | [] => [[c]]
          | w :: ws => (c :: w) :: ws

/-- Removal of trailing whitespace (used to reason about the synthetic
trailing space the wrapper leaves on each line). -/
def stripEnd (s : Str) : Str :=
  (s.reverse.dropWhile isSpaceChar).reverse

/-- Python `line.strip()` (line 23 of the source): remove leading and
trailing whitespace. -/
def pyStrip (s : Str) : Str :=
  stripEnd (s.dropWhile isSpaceChar)

/-- ReportLab's `stringWidth(s, fontName, fontSize)`: the sum of the
glyph widths of the characters of `s`.  The per-character width table
`cw` stands for the font-and-size-specific metrics. -/
def stringWidth (s : Str) (cw : Char → Nat) : Nat :=
  (s.map cw).sum

/-- Inner token loop of `wrap_text` (source lines 27-34): greedily grow
`current_line`; a token that does not fit closes the current candidate
line (emitted as is, trailing space included) and starts a new candidate
`word ++ " "`.  After the last token the candidate is always flushed. -/
def wrapWords (width : Int) (cw : Char → Nat) : List Str → Str → List Str
  | [], current_line => [current_line]
  | word :: ws, current_line =>
    if (stringWidth (current_line ++ word) cw : Int) ≤ width then
      wrapWords width cw ws (current_line ++ word ++ [' '])
    else
      current_line :: wrapWords width cw ws (word ++ [' '])

/-- Body of the `for line in lines` loop of `wrap_text` (source lines
22-34): a blank line (one whose `strip()` is empty) is passed through
unchanged; any other line is tokenised and greedily wrapped. -/
def wrapLine (width : Int) (cw : Char → Nat) (line : Str) : List Str :=
  if pyStrip line = [] then [line]
  else wrapWords width cw (pyWords line) []

/-- `wrap_text(text, width, canvas, font_name, font_size)` (source lines
18-35): wrap each newline-delimited segment of `text` independently and
concatenate the resulting display lines in order. -/
def wrap_text (text : Str) (width : Int) (cw : Char → Nat) : List Str :=
  ((splitNl text).map (wrapLine width cw)).flatten

/-- A wrapper token: a nonempty string containing no whitespace.  Every
result of `pyWords` has this shape. -/
def Tok (w : Str) : Prop :=
  w ≠ [] ∧ ∀ c ∈ w, isSpaceChar c = false

/-- The accumulated candidate line of `wrap_text`: the tokens taken so
far, each followed by one space. -/
def joinTrail (ts : List Str) : Str :=
  (ts.map (fun t => t ++ [' '])).flatten

/-- Tokens joined by single spaces without a trailing space (the visible
content of a finished candidate line). -/
def joinSp : List Str → Str
  | [] => []
  | [t] => t
  | t :: ts => t ++ ' ' :: joinSp ts

theorem stringWidth_append (s t : Str) (cw : Char → Nat) :
    stringWidth (s ++ t) cw = stringWidth s cw + stringWidth t cw := by
  simp [stringWidth]

theorem joinTrail_nil : joinTrail [] = [] := rfl

theorem joinTrail_concat (ts : List Str) (w : Str) :
    joinTrail (ts ++ [w]) = joinTrail ts ++ (w ++ [' ']) := by
  simp [joinTrail]

theorem joinTrail_single (w : Str) : joinTrail [w] = w ++ [' '] := by
  simp [joinTrail]

theorem joinTrail_cons (t : Str) (ts : List Str) :
    joinTrail (t :: ts) = t ++ ' ' :: joinTrail ts := by
  simp [joinTrail]

theorem joinSp_concat : ∀ (ts : List Str) (w : Str),
    joinSp (ts ++ [w]) = joinTrail ts ++ w
  | [], w => by simp [joinSp, joinTrail]
  | [t], w => by simp [joinSp, joinTrail]
  | t :: u :: ts, w => by
    have ih := joinSp_concat (u :: ts) w
    simp only [List.cons_append] at ih
    show joinSp (t :: u :: (ts ++ [w])) = joinTrail (t :: u :: ts) ++ w
    rw [joinSp, ih] <;> simp [joinTrail_cons, List.append_assoc]

theorem pyWords_nil : pyWords [] = [] := rfl

theorem pyWords_single (c : Char) :
    pyWords [c] = if isSpaceChar c then [] else [[c]] := rfl

theorem pyWords_cons₂ (c d : Char) (cs : Str) :
    pyWords (c :: d :: cs) =
      if isSpaceChar c then pyWords (d :: cs)
      else if isSpaceChar d then [c] :: pyWords (d :: cs)
      else
        match pyWords (d :: cs) with
        | [] => [[c]]
        | w :: ws => (c :: w) :: ws := rfl

theorem pyWords_space_cons (c : Char) (h : isSpaceChar c = true) (s : Str) :
    pyWords (c :: s) = pyWords s := by
  cases s with
  | nil => rw [pyWords_single, if_pos h]; rfl
  | cons d s' => rw [pyWords_cons₂, if_pos h]

theorem pyWords_tok_cons : ∀ (w : Str), w ≠ [] → (∀ c ∈ w, isSpaceChar c = false) →
    ∀ s : Str, pyWords (w ++ ' ' :: s) = w :: pyWords s
  | [], h, _, _ => absurd rfl h
  | [c], _, hall, s => by
    have hc : isSpaceChar c = false := hall c (by simp)
    show pyWords (c :: ' ' :: s) = [c] :: pyWords s
    rw [pyWords_cons₂, if_neg (by simp [hc]),
      if_pos (show isSpaceChar ' ' = true from rfl),
      pyWords_space_cons ' ' rfl]
  | c :: d :: w, _, hall, s => by
    have hc : isSpaceChar c = false := hall c (by simp)
    have hd : isSpaceChar d = false := hall d (by simp)
    have ih := pyWords_tok_cons (d :: w) (by simp)
      (fun x hx => hall x (List.mem_cons_of_mem c hx)) s
    simp only [List.cons_append] at ih ⊢
    rw [pyWords_cons₂, if_neg (by simp [hc]), if_neg (by simp [hd]), ih]

theorem pyWords_tok (s : Str) : ∀ w ∈ pyWords s, Tok w := by
  induction s with
  | nil => simp [pyWords_nil]
  | cons c cs ih =>
    intro w hw
    by_cases hc : isSpaceChar c = true
    · rw [pyWords_space_cons c hc] at hw
      exact ih w hw
    · have hc' : isSpaceChar c = false := by simpa using hc
      cases cs with
      | nil =>
        rw [pyWords_single, if_neg (by simp [hc'])] at hw
        simp only [List.mem_singleton] at hw
        subst hw
        exact ⟨by simp, by simp [hc']⟩
      | cons d cs' =>
        rw [pyWords_cons₂, if_neg (by simp [hc'])] at hw
        by_cases hd : isSpaceChar d = true
        · simp only [hd, if_true, List.mem_cons] at hw
          rcases hw with hw | hw
          · subst hw
            exact ⟨by simp, by simp [hc']⟩
          · exact ih w hw
        · have hd' : isSpaceChar d = false := by simpa using hd
          rw [if_neg (by simp [hd'])] at hw
          cases hp : pyWords (d :: cs') with
          | nil =>
            rw [hp] at hw
            simp only [List.mem_singleton] at hw
            subst hw
            exact ⟨by simp, by simp [hc']⟩
          | cons w0 ws0 =>
            rw [hp] at hw
            simp only [List.mem_cons] at hw
            rcases hw with hw | hw
            · subst hw
              have h0 : Tok w0 := ih w0 (by rw [hp]; exact List.mem_cons_self _ _)
              refine ⟨by simp, ?_⟩
              intro x hx
              rcases List.mem_cons.mp hx with hx | hx
              · subst hx; exact hc'
              · exact h0.2 x hx
            · exact ih w (by rw [hp]; exact List.mem_cons_of_mem _ hw)

theorem pyWords_joinTrail : ∀ (ts : List Str), (∀ t ∈ ts, Tok t) →
    pyWords (joinTrail ts) = ts
  | [], _ => rfl
  | t :: ts, hall => by
    have ht := hall t (List.mem_cons_self _ _)
    rw [joinTrail_cons, pyWords_tok_cons t ht.1 ht.2,
      pyWords_joinTrail ts (fun x hx => hall x (List.mem_cons_of_mem _ hx))]

theorem pyWords_of_all_space (s : Str) (h : ∀ c ∈ s, isSpaceChar c = true) :
    pyWords s = [] := by
  induction s with
  | nil => rfl
  | cons c cs ih =>
    rw [pyWords_space_cons c (h c (List.mem_cons_self _ _))]
    exact ih (fun x hx => h x (List.mem_cons_of_mem _ hx))

theorem stripEnd_of_all_space (s : Str) (h : ∀ c ∈ s, isSpaceChar c = true) :
    stripEnd s = [] := by
  unfold stripEnd
  rw [List.dropWhile_eq_nil_iff.mpr (fun x hx => h x (List.mem_reverse.mp hx))]
  rfl

theorem pyStrip_nil_space (s : Str) (h : pyStrip s = []) :
    ∀ c ∈ s, isSpaceChar c = true := by
  unfold pyStrip stripEnd at h
  have h2 : (s.dropWhile isSpaceChar).reverse.dropWhile isSpaceChar = [] := by
    have := congrArg List.reverse h
    simpa using this
  have h3 : ∀ c ∈ s.dropWhile isSpaceChar, isSpaceChar c = true := by
    intro c hc
    exact List.dropWhile_eq_nil_iff.mp h2 c (List.mem_reverse.mpr hc)
  intro c hc
  rw [← List.takeWhile_append_dropWhile (p := isSpaceChar) (l := s)] at hc
  rcases List.mem_append.mp hc with hc | hc
  · exact List.mem_takeWhile_imp hc
  · exact h3 c hc

theorem wrapWords_words (width : Int) (cw : Char → Nat) :
    ∀ (ws ts : List Str), (∀ w ∈ ws, Tok w) → (∀ t ∈ ts, Tok t) →
      ((wrapWords width cw ws (joinTrail ts)).map pyWords).flatten = ts ++ ws
  | [], ts, _, hts => by
    rw [wrapWords]
    simp [pyWords_joinTrail ts hts]
  | w :: ws, ts, hws, hts => by
    have hw : Tok w := hws w (List.mem_cons_self _ _)
    have hws' : ∀ x ∈ ws, Tok x := fun x hx => hws x (List.mem_cons_of_mem _ hx)
    rw [wrapWords]
    by_cases hfit : (stringWidth (joinTrail ts ++ w) cw : Int) ≤ width
    · rw [if_pos hfit]
      have h1 : joinTrail ts ++ w ++ [' '] = joinTrail (ts ++ [w]) := by
        rw [joinTrail_concat, List.append_assoc]
      rw [h1, wrapWords_words width cw ws (ts ++ [w]) hws' ?hts2]
      · simp
      case hts2 =>
        intro t ht
        rcases List.mem_append.mp ht with h | h
        · exact hts t h
        · simp only [List.mem_singleton] at h
          subst h
          exact hw
    · rw [if_neg hfit]
      simp only [List.map_cons, List.flatten_cons]
      rw [pyWords_joinTrail ts hts, show w ++ [' '] = joinTrail [w] from (joinTrail_single w).symm,
        wrapWords_words width cw ws [w] hws' ?hts1]
      · simp
      case hts1 =>
        intro t ht
        simp only [List.mem_singleton] at ht
        subst ht
        exact hw

theorem stripEnd_append_tok (s w : Str) (hne : w ≠ [])
    (hall : ∀ c ∈ w, isSpaceChar c = false) :
    stripEnd (s ++ (w ++ [' '])) = s ++ w := by
  unfold stripEnd
  have hrev : (s ++ (w ++ [' '])).reverse = ' ' :: (w.reverse ++ s.reverse) := by
    simp
  rw [hrev, List.dropWhile_cons]
  simp only [show isSpaceChar ' ' = true from rfl, if_true]
  cases hw : w.reverse with
  | nil => exact absurd (by simpa using congrArg List.reverse hw) hne
  | cons c rest =>
    have hc : isSpaceChar c = false := by
      apply hall
      have : c ∈ w.reverse := by rw [hw]; exact List.mem_cons_self _ _
      exact List.mem_reverse.mp this
    rw [List.cons_append, List.dropWhile_cons]
    simp only [hc, Bool.false_eq_true, if_false]
    have : c :: (rest ++ s.reverse) = (s ++ w).reverse := by
      rw [List.reverse_append, hw]
      simp
    rw [this, List.reverse_reverse]

theorem stripEnd_nil : stripEnd [] = [] := rfl

/-- A finished candidate line (the flush of `joinTrail ts`) either fits
within `width` once its trailing space is stripped, or consists of a
single over-wide token. -/
theorem joinTrail_line_cases (width : Int) (cw : Char → Nat) (hW : 0 ≤ width)
    (ts : List Str) (hts : ∀ t ∈ ts, Tok t)
    (hinv : ts = [] ∨ (stringWidth (joinSp ts) cw : Int) ≤ width ∨
      ∃ w, ts = [w] ∧ width < (stringWidth w cw : Int)) :
    (stringWidth (stripEnd (joinTrail ts)) cw : Int) ≤ width ∨
      ∃ w, pyWords (joinTrail ts) = [w] ∧ width < (stringWidth w cw : Int) := by
  rcases hinv with h | h | ⟨w, rfl, hover⟩
  · subst h
    left
    rw [joinTrail_nil, stripEnd_nil]
    simpa [stringWidth] using hW
  · left
    rcases List.eq_nil_or_concat ts with rfl | ⟨ts', w, rfl⟩
    · rw [joinTrail_nil, stripEnd_nil]
      simpa [stringWidth] using hW
    · simp only [List.concat_eq_append] at h hts ⊢
      have hwTok : Tok w := hts w (by simp)
      rw [joinTrail_concat, stripEnd_append_tok _ _ hwTok.1 hwTok.2, ← joinSp_concat]
      exact h
  · right
    exact ⟨w, pyWords_joinTrail [w] hts, hover⟩

/-- Invariant-carrying width bound for the greedy token loop: every line
it emits fits within `width` after stripping the trailing space, except
lines holding a single over-wide token. -/
theorem wrapWords_width (width : Int) (cw : Char → Nat) (hW : 0 ≤ width) :
    ∀ (ws ts : List Str), (∀ w ∈ ws, Tok w) → (∀ t ∈ ts, Tok t) →
      (ts = [] ∨ (stringWidth (joinSp ts) cw : Int) ≤ width ∨
        ∃ w, ts = [w] ∧ width < (stringWidth w cw : Int)) →
      ∀ L ∈ wrapWords width cw ws (joinTrail ts),
        (stringWidth (stripEnd L) cw : Int) ≤ width ∨
          ∃ w, pyWords L = [w] ∧ width < (stringWidth w cw : Int)
  | [], ts, _, hts, hinv, L, hL => by
    rw [wrapWords] at hL
    simp only [List.mem_singleton] at hL
    subst hL
    exact joinTrail_line_cases width cw hW ts hts hinv
  | w :: ws, ts, hws, hts, hinv, L, hL => by
    have hw : Tok w := hws w (List.mem_cons_self _ _)
    have hws' : ∀ x ∈ ws, Tok x := fun x hx => hws x (List.mem_cons_of_mem _ hx)
    rw [wrapWords] at hL
    by_cases hfit : (stringWidth (joinTrail ts ++ w) cw : Int) ≤ width
    · rw [if_pos hfit] at hL
      have h1 : joinTrail ts ++ w ++ [' '] = joinTrail (ts ++ [w]) := by
        rw [joinTrail_concat, List.append_assoc]
      rw [h1] at hL
      refine wrapWords_width width cw hW ws (ts ++ [w]) hws' ?_ ?_ L hL
      · intro t ht
        rcases List.mem_append.mp ht with h | h
        · exact hts t h
        · simp only [List.mem_singleton] at h
          subst h
          exact hw
      · right; left
        rw [joinSp_concat]
        exact hfit
    · rw [if_neg hfit] at hL
      rcases List.mem_cons.mp hL with rfl | hL'
      · exact joinTrail_line_cases width cw hW ts hts hinv
      · rw [show w ++ [' '] = joinTrail [w] from (joinTrail_single w).symm] at hL'
        refine wrapWords_width width cw hW ws [w] hws' ?_ ?_ L hL'
        · intro t ht
          simp only [List.mem_singleton] at ht
          subst ht
          exact hw
        · rcases le_or_lt (stringWidth w cw : Int) width with h | h
          · right; left
            simpa [joinSp] using h
          · right; right
            exact ⟨w, rfl, h⟩

/-- Once the candidate line holds an over-wide token (`w ++ " "` with
`stringWidth w > width`), every following token is rejected, so that
candidate is the very next emitted line. -/
theorem wrapWords_head_overlong (width : Int) (cw : Char → Nat) (w : Str)
    (hover : width < (stringWidth w cw : Int)) :
    ∀ ws : List Str, ∃ rest, wrapWords width cw ws (w ++ [' ']) = (w ++ [' ']) :: rest
  | [] => ⟨[], rfl⟩
  | w2 :: ws => by
    have hmono : stringWidth w cw ≤ stringWidth ((w ++ [' ']) ++ w2) cw := by
      rw [stringWidth_append, stringWidth_append]
      omega
    have hno : ¬ ((stringWidth ((w ++ [' ']) ++ w2) cw : Int) ≤ width) := by
      push_neg
      exact lt_of_lt_of_le hover (by exact_mod_cast hmono)
    rw [wrapWords, if_neg hno]
    exact ⟨_, rfl⟩

/-- Every occurrence of an over-wide token in the token list ends up on
a line of its own, whatever candidate the loop starts from. -/
theorem wrapWords_overlong (width : Int) (cw : Char → Nat) (w : Str)
    (hover : width < (stringWidth w cw : Int)) :
    ∀ (ws : List Str) (cur : Str), w ∈ ws →
      (w ++ [' ']) ∈ wrapWords width cw ws cur
  | [], _, hmem => absurd hmem (List.not_mem_nil _)
  | w' :: ws, cur, hmem => by
    rw [wrapWords]
    rcases List.mem_cons.mp hmem with rfl | hmem'
    · have hmono : stringWidth w cw ≤ stringWidth (cur ++ w) cw := by
        rw [stringWidth_append]
        omega
      have hno : ¬ ((stringWidth (cur ++ w) cw : Int) ≤ width) := by
        push_neg
        exact lt_of_lt_of_le hover (by exact_mod_cast hmono)
      rw [if_neg hno]
      obtain ⟨rest, hrest⟩ := wrapWords_head_overlong width cw w hover ws
      rw [hrest]
      exact List.mem_cons_of_mem _ (List.mem_cons_self _ _)
    · by_cases hfit : (stringWidth (cur ++ w') cw : Int) ≤ width
      · rw [if_pos hfit]
        exact wrapWords_overlong width cw w hover ws _ hmem'
      · rw [if_neg hfit]
        exact List.mem_cons_of_mem _ (wrapWords_overlong width cw w hover ws _ hmem')

/-- Fixed all-ones width table used for concrete witnesses and
counterexamples (every character one unit wide). -/
def cwOne : Char → Nat := fun _ => 1

/-- Claim C1, as stated, is false: the wrapper appends a synthetic
trailing space to every accepted line, so an accepted line can measure
wider than the usable width.  With every character one unit wide and
`width = 2`, input `"ab"` wraps to the single line `"ab "` of measured
width 3 > 2, whose sole token `"ab"` measures only 2 and so does not
exceed the width either. -/
theorem wrap_width_bound_counterexample :
    (['a', 'b', ' '] ∈ wrap_text ['a', 'b'] 2 cwOne) ∧
    ¬ ((stringWidth ['a', 'b', ' '] cwOne : Int) ≤ 2) ∧
    pyWords ['a', 'b', ' '] = [['a', 'b']] ∧
    (stringWidth ['a', 'b'] cwOne : Int) ≤ 2 := by
  decide

/-- Claim C1 (amended): for a nonnegative usable width, every line
produced by `wrap_text` measures within the width once its synthetic
trailing whitespace is stripped, unless its tokens form a single token
whose own measured width exceeds the width. -/
theorem wrap_width_bound (text : Str) (width : Int) (cw : Char → Nat)
    (hW : 0 ≤ width) (L : Str) (hL : L ∈ wrap_text text width cw) :
    (stringWidth (stripEnd L) cw : Int) ≤ width ∨
      ∃ w, pyWords L = [w] ∧ width < (stringWidth w cw : Int) := by
  rw [wrap_text, List.mem_flatten] at hL
  obtain ⟨lines, hlines, hmem⟩ := hL
  rw [List.mem_map] at hlines
  obtain ⟨seg, hseg, rfl⟩ := hlines
  by_cases hb : pyStrip seg = []
  · rw [wrapLine, if_pos hb] at hmem
    simp only [List.mem_singleton] at hmem
    subst hmem
    left
    rw [stripEnd_of_all_space L (pyStrip_nil_space L hb)]
    simpa [stringWidth] using hW
  · rw [wrapLine, if_neg hb] at hmem
    exact wrapWords_width width cw hW (pyWords seg) [] (pyWords_tok seg)
      (by simp) (Or.inl rfl) L hmem

/-- Witness for `wrap_width_bound` at a concrete input: width 2, all-ones
metrics, text `"ab"`, line `"ab "`. -/
theorem wrap_width_bound_witness :
    (0 : Int) ≤ 2 ∧ (['a', 'b', ' '] ∈ wrap_text ['a', 'b'] 2 cwOne) ∧
    ((stringWidth (stripEnd ['a', 'b', ' ']) cwOne : Int) ≤ 2 ∨
      ∃ w, pyWords ['a', 'b', ' '] = [w] ∧ 2 < (stringWidth w cwOne : Int)) :=
  ⟨by decide, by decide,
    wrap_width_bound ['a', 'b'] 2 cwOne (by decide) ['a', 'b', ' '] (by decide)⟩

/-- Claim C4: `wrap_text` processes each newline-delimited segment
independently (first conjunct, by construction), and per segment the
tokens of the emitted lines, read in order and ignoring the synthetic
trailing spaces, are exactly the segment's original tokens. -/
theorem wrap_reconstructs_tokens (text : Str) (width : Int) (cw : Char → Nat) :
    wrap_text text width cw = ((splitNl text).map (wrapLine width cw)).flatten ∧
    ∀ line : Str, ((wrapLine width cw line).map pyWords).flatten = pyWords line := by
  refine ⟨rfl, ?_⟩
  intro line
  by_cases hb : pyStrip line = []
  · rw [wrapLine, if_pos hb]
    simp
  · rw [wrapLine, if_neg hb]
    have h := wrapWords_words width cw (pyWords line) [] (pyWords_tok line) (by simp)
    rw [joinTrail_nil] at h
    rw [h]
    rfl

/-- Claim C5: any token occurring in a segment whose measured width
exceeds the usable width is emitted intact and alone on its own output
line (the line is the token plus the wrapper's synthetic trailing space;
the function is total, so no error arises). -/
theorem overlong_token_own_line (text : Str) (width : Int) (cw : Char → Nat)
    (seg w : Str) (hseg : seg ∈ splitNl text) (hw : w ∈ pyWords seg)
    (hover : width < (stringWidth w cw : Int)) :
    ∃ L ∈ wrap_text text width cw, pyWords L = [w] ∧ L = w ++ [' '] := by
  have hTok : Tok w := pyWords_tok seg w hw
  have hb : ¬ (pyStrip seg = []) := by
    intro h
    rw [pyWords_of_all_space seg (pyStrip_nil_space seg h)] at hw
    exact (List.not_mem_nil w) hw
  refine ⟨w ++ [' '], ?_, ?_, rfl⟩
  · rw [wrap_text, List.mem_flatten]
    refine ⟨wrapLine width cw seg, List.mem_map_of_mem _ hseg, ?_⟩
    rw [wrapLine, if_neg hb]
    exact wrapWords_overlong width cw w hover (pyWords seg) [] hw
  · rw [show w ++ [' '] = w ++ ' ' :: ([] : Str) from rfl,
      pyWords_tok_cons w hTok.1 hTok.2]
    rfl

/-- Witness for `overlong_token_own_line`: width 1, all-ones metrics,
text `"ab"` whose only token measures 2 > 1. -/
theorem overlong_token_own_line_witness :
    (['a', 'b'] ∈ splitNl ['a', 'b']) ∧ (['a', 'b'] ∈ pyWords ['a', 'b']) ∧
    (1 : Int) < (stringWidth ['a', 'b'] cwOne : Int) ∧
    ∃ L ∈ wrap_text ['a', 'b'] 1 cwOne, pyWords L = [['a', 'b']] ∧ L = ['a', 'b'] ++ [' '] :=
  ⟨by decide, by decide, by decide,
    overlong_token_own_line ['a', 'b'] 1 cwOne ['a', 'b'] ['a', 'b']
      (by decide) (by decide) (by decide)⟩

/-- Claim C6, as stated, is false: a blank-but-nonempty input line (for
example a single space) is passed through unchanged, producing one
NONempty output line, not an empty one. -/
theorem blank_line_counterexample :
    wrap_text [' '] 5 cwOne = [[' ']] ∧ ([' '] : Str) ≠ ([] : Str) := by
  decide

/-- Claim C6 (amended): `wrap_text` maps each segment independently in
order (first conjunct, by construction), and a blank input line (one
whose `strip()` is empty) produces exactly one output line at the same
relative position, namely the input line itself — which is the empty
line exactly when the input line was empty. -/
theorem blank_line_passthrough (width : Int) (cw : Char → Nat) (text : Str) :
    wrap_text text width cw = ((splitNl text).map (wrapLine width cw)).flatten ∧
    ∀ line : Str, pyStrip line = [] → wrapLine width cw line = [line] := by
  refine ⟨rfl, ?_⟩
  intro line hb
  rw [wrapLine, if_pos hb]

/-- Witness for `blank_line_passthrough`: the blank line consisting of a
single space is emitted unchanged as one line. -/
theorem blank_line_passthrough_witness :
    pyStrip [' '] = ([] : Str) ∧ wrapLine 5 cwOne [' '] = [[' ']] :=
  ⟨by decide, (blank_line_passthrough 5 cwOne []).2 [' '] (by decide)⟩

/-- Claim C9: when a non-blank segment's first token is already wider
than the usable width, the empty initial candidate is flushed first, so
the segment's output starts with a spurious empty line immediately
followed by the line carrying the over-wide token. -/
theorem overlong_first_token_blank (text : Str) (width : Int) (cw : Char → Nat)
    (seg w : Str) (ws : List Str) (hseg : seg ∈ splitNl text)
    (hw : pyWords seg = w :: ws) (hover : width < (stringWidth w cw : Int)) :
    ∃ rest, wrapLine width cw seg = [] :: (w ++ [' ']) :: rest := by
  have hb : ¬ (pyStrip seg = []) := by
    intro h
    rw [pyWords_of_all_space seg (pyStrip_nil_space seg h)] at hw
    exact List.noConfusion hw
  rw [wrapLine, if_neg hb, hw, wrapWords]
  have hno : ¬ ((stringWidth (([] : Str) ++ w) cw : Int) ≤ width) := by
    rw [List.nil_append]
    omega
  rw [if_neg hno]
  obtain ⟨rest, hrest⟩ := wrapWords_head_overlong width cw w hover ws
  exact ⟨rest, by rw [hrest]⟩

/-- Witness for `overlong_first_token_blank`: width 1, all-ones metrics,
segment `"ab"`; the wrapped segment is `["", "ab "]`. -/
theorem overlong_first_token_blank_witness :
    (['a', 'b'] ∈ splitNl ['a', 'b']) ∧ pyWords ['a', 'b'] = [['a', 'b']] ∧
    (1 : Int) < (stringWidth ['a', 'b'] cwOne : Int) ∧
    ∃ rest, wrapLine 1 cwOne ['a', 'b'] = [] :: (['a', 'b'] ++ [' ']) :: rest :=
  ⟨by decide, by decide, by decide,
    overlong_first_token_blank ['a', 'b'] 1 cwOne ['a', 'b'] ['a', 'b'] []
      (by decide) (by decide) (by decide)⟩

/-- ReportLab `letter` page width in points. -/
def pageW : Int := 612

/-- ReportLab `letter` page height in points. -/
def pageH : Int := 792

/-- The margins dictionary passed to `create_pdf` (left, top, bottom,
right, in points). -/
structure Margins where
  left : Int
  top : Int
  bottom : Int
  right : Int
deriving DecidableEq, Repr

/-- One observable effect of the script: a ReportLab canvas call
(`setFont`, `drawString`, `showPage`, `save`) or an append to the
processed-episodes ledger file (`update_log_file`, which writes one line).
A run of `create_pdf` is modelled as the list of these actions in
program order. -/
inductive Act where
  | setFont (name : Str) (size : Int)
  | drawString (x y : Int) (s : Str)
  | showPage
  | appendLog (line : Str)
  | save
deriving DecidableEq, Repr

def fontBold : Str := "Helvetica-Bold".data

def fontHelv : Str := "Helvetica".data

def indexTitle : Str := "Index of Episodes".data

/-- Decimal digits of a natural number (Python `str(n)` for an `int`). -/
def natStr (n : Nat) : Str := Nat.toDigits 10 n

/-- Python `str(episode_number)`: the episode number is an `int` or
`None` (when the filename holds no digits), printed as `"None"`. -/
def epStr : Option Nat → Str
  | some n => natStr n
  | none => "None".data

/-- The string `f"Episode {episode_number}"`. -/
def epLine (ep : Option Nat) : Str := "Episode ".data ++ epStr ep

/-- `add_page_header_footer(canvas, episode_number, margins)` (source
lines 12-16): header at the top margin, footer at the bottom margin. -/
def add_page_header_footer (ep : Option Nat) (m : Margins) : List Act :=
  [Act.drawString m.left (pageH - m.top) (epLine ep),
   Act.drawString m.left m.bottom (epLine ep)]

/-- Index loop of `create_pdf` (source lines 76-83): one `"Episode {n}"`
entry per transcript; before drawing an entry, if the cursor has reached
the bottom limit, a new page is started, the cursor reset, and the
header/footer redrawn keyed to the current entry's episode.  Returns the
emitted actions and the final cursor. -/
def indexFlow (m : Margins) : List (Option Nat × Str) → Int → List Act × Int
  | [], y => ([], y)
  | (ep, _) :: rest, y =>
    if y ≤ m.bottom + 30 then
      (Act.showPage :: add_page_header_footer ep m ++
        Act.drawString m.left (pageH - m.top - 60) (epLine ep) ::
          (indexFlow m rest (pageH - m.top - 60 - 14)).1,
       (indexFlow m rest (pageH - m.top - 60 - 14)).2)
    else
      (Act.drawString m.left y (epLine ep) :: (indexFlow m rest (y - 14)).1,
       (indexFlow m rest (y - 14)).2)

/-- Body-line loop of `create_pdf` (source lines 105-111): draw each
wrapped line at the cursor, starting a new page (with header/footer for
the current episode) whenever the cursor has reached the bottom limit;
the cursor drops by 14 after every drawn line.  Returns the emitted
actions and the final cursor. -/
def flowLines (m : Margins) (ep : Option Nat) : List Str → Int → List Act × Int
  | [], y => ([], y)
  | line :: rest, y =>
    if y ≤ m.bottom + 30 then
      (Act.showPage :: add_page_header_footer ep m ++
        Act.drawString m.left (pageH - m.top - 60) line ::
          (flowLines m ep rest (pageH - m.top - 60 - 14)).1,
       (flowLines m ep rest (pageH - m.top - 60 - 14)).2)
    else
      (Act.drawString m.left y line :: (flowLines m ep rest (y - 14)).1,
       (flowLines m ep rest (y - 14)).2)

/-- Per-transcript body phase of `create_pdf` (source lines 89-115): an
episode listed in the ledger is skipped outright; otherwise header and
footer, bold title, wrapped body lines through the page-flow loop, then
the ledger append and a closing page break. -/
def bodyBlock (cw : Char → Nat) (m : Margins) (processed : List Str)
    (it : Option Nat × Str) : List Act :=
  if epStr it.1 ∈ processed then []
  else
    add_page_header_footer it.1 m ++
    Act.setFont fontBold 14 ::
    Act.drawString m.left (pageH - m.top - 60) (epLine it.1) ::
    Act.setFont fontHelv 12 ::
    ((flowLines m it.1 (wrap_text it.2 (pageW - m.left - m.right) cw)
        (pageH - m.top - 60 - 14)).1 ++
      [Act.appendLog (epStr it.1), Act.showPage])

/-- `create_pdf(transcripts, output_filename, margins, log_file_path)`
(source lines 63-117) as an action trace: index title, index entries
through the page flow, an unconditional page break, then each
transcript's body block, and the final `c.save()`.  The ledger contents
read at line 65 are passed in as `processed`. -/
def create_pdf (cw : Char → Nat) (transcripts : List (Option Nat × Str))
    (m : Margins) (processed : List Str) : List Act :=
  Act.setFont fontBold 14 ::
  Act.drawString m.left (pageH - m.top - 60) indexTitle ::
  Act.setFont fontHelv 12 ::
  ((indexFlow m transcripts (pageH - m.top - 60 - 16)).1 ++
    Act.showPage ::
    ((transcripts.map (bodyBlock cw m processed)).flatten ++ [Act.save]))

/-- The file system visible to the script: a partial map from paths to
file contents. -/
abbrev FileSys := Str → Option Str

/-- Python `os.path.exists(path)`. -/
def os_path_exists (fs : FileSys) (p : Str) : Bool := (fs p).isSome

/-- Opening a file for reading: yields its contents, or an I/O error
when the file does not exist. -/
def openRead (fs : FileSys) (p : Str) : Except Unit Str :=
  match fs p with
  | some content => Except.ok content
  | none => Except.error ()

/-- Python `str.splitlines()` on newline-delimited content: like
splitting on `'\n'` but without a trailing empty line. -/
def splitlines (s : Str) : List Str :=
  let l := splitNl s
  if l.getLast? = some [] then l.dropLast else l

/-- `get_processed_episodes(log_file_path)` (source lines 37-42): when
the ledger file exists, read it and return its lines (a set of episode
number strings); otherwise return the empty set without touching the
file. -/
def get_processed_episodes (fs : FileSys) (p : Str) : Except Unit (List Str) :=
  if os_path_exists fs p then
    match openRead fs p with
    | Except.ok content => Except.ok (splitlines content)
    | Except.error e => Except.error e
  else Except.ok []

/-- `extract_episode_number(filename)` (source lines 7-10): the first
run of decimal digits in the filename, or `None`. -/
def extract_episode_number (filename : Str) : Option Nat :=
  match filename.dropWhile (fun c => !c.isDigit) with
  | [] => none
  | c :: cs =>
    some ((c :: cs.takeWhile (fun d => d.isDigit)).foldl
      (fun acc d => acc * 10 + (d.toNat - 48)) 0)

/-- Sort key of the main script's `sorted(...)` call (line 133):
`int(extract_episode_number(f) or 0)`. -/
def epKey (name : Str) : Nat := (extract_episode_number name).getD 0

def txtExt : Str := ".txt".data

/-- Transcript assembly of the main script (source lines 132-143): list
the directory's files in stable order of ascending episode key, keep the
`.txt` files, and DROP every file whose episode number is already in the
ledger; the remaining files are read and paired with their episode
numbers.  The directory is modelled as a list of (name, contents) pairs
in `os.listdir` order, and the ledger contents as `processed`. -/
def buildTranscripts (files : List (Str × Str)) (processed : List Str) :
    List (Option Nat × Str) :=
  ((files.insertionSort (fun a b => epKey a.1 ≤ epKey b.1)).filter
      (fun f => txtExt.isSuffixOf f.1)).filterMap
    (fun f =>
      if epStr (extract_episode_number f.1) ∈ processed then none
      else some (extract_episode_number f.1, f.2))

/-- The margins the script uses (source line 129): 50 points on every
side.  Used for concrete witnesses. -/
def m0 : Margins := ⟨50, 50, 50, 50⟩

theorem flowLines_nil (m : Margins) (ep : Option Nat) (y : Int) :
    flowLines m ep [] y = ([], y) := rfl

/-- The body-line flow over a concatenation runs the second part from
the cursor the first part ends at. -/
theorem flowLines_append (m : Margins) (ep : Option Nat) :
    ∀ (l1 l2 : List Str) (y : Int),
      flowLines m ep (l1 ++ l2) y =
        ((flowLines m ep l1 y).1 ++ (flowLines m ep l2 (flowLines m ep l1 y).2).1,
         (flowLines m ep l2 (flowLines m ep l1 y).2).2)
  | [], l2, y => by simp [flowLines]
  | line :: l1, l2, y => by
    rw [List.cons_append, flowLines, flowLines]
    by_cases hbr : y ≤ m.bottom + 30
    · rw [if_pos hbr, if_pos hbr, flowLines_append m ep l1 l2 (pageH - m.top - 60 - 14)]
      simp [List.append_assoc]
    · rw [if_neg hbr, if_neg hbr, flowLines_append m ep l1 l2 (y - 14)]
      simp

/-- As long as the cursor stays above the bottom limit, the flow loop
draws each line 14 points below the previous one and breaks no page. -/
theorem flowLines_noBreak (m : Margins) (ep : Option Nat) :
    ∀ (lines : List Str) (y : Int),
      (∀ k : Nat, k < lines.length → m.bottom + 30 < y - 14 * k) →
      flowLines m ep lines y =
        (lines.enum.map (fun p => Act.drawString m.left (y - 14 * (p.1 : Int)) p.2),
         y - 14 * lines.length)
  | [], y, _ => by simp [flowLines]
  | line :: rest, y, h => by
    have h0 : m.bottom + 30 < y := by
      have := h 0 (by simp)
      simpa using this
    have ih := flowLines_noBreak m ep rest (y - 14) ?hrec
    case hrec =>
      intro k hk
      have := h (k + 1) (by simpa using Nat.succ_lt_succ hk)
      push_cast at this ⊢
      omega
    rw [flowLines, if_neg (by omega), ih, List.enum_cons']
    refine Prod.ext ?_ ?_
    · simp only [List.map_cons, List.map_map]
      congr 1
      · norm_num
      · refine List.map_congr_left ?_
        rintro ⟨k, a⟩ hk
        simp only [Function.comp_apply, Prod.map_apply, id_eq]
        congr 1
        push_cast
        ring
    · simp only [List.length_cons]
      push_cast
      ring

/-- Recogniser for page-break actions (used to count page breaks). -/
def isShowPage : Act → Bool
  | Act.showPage => true
  | _ => false

/-- Claim C8: in the page-flow loops, (i) a new page is started exactly
when the cursor is at or below `bottom + 30` at the moment a line is
emitted, (ii) on a break the cursor is reset to `pageH - top - 60` and
the line is drawn there, (iii) after every emitted line the loop
continues with the cursor lowered by exactly 14, and (iv) while no break
occurs the lines of a page are drawn at cursor positions descending by
exactly 14 per line.  Stated for the body-line loop and, for (i)-(iii),
also for the index-entry loop. -/
theorem page_flow_cursor_invariant (m : Margins) (ep : Option Nat) :
    (∀ (line : Str) (rest : List Str) (y : Int),
      ((∃ tl, (flowLines m ep (line :: rest) y).1 = Act.showPage :: tl) ↔
        y ≤ m.bottom + 30) ∧
      (y ≤ m.bottom + 30 →
        flowLines m ep (line :: rest) y =
          (Act.showPage :: add_page_header_footer ep m ++
            Act.drawString m.left (pageH - m.top - 60) line ::
              (flowLines m ep rest (pageH - m.top - 60 - 14)).1,
           (flowLines m ep rest (pageH - m.top - 60 - 14)).2)) ∧
      (m.bottom + 30 < y →
        flowLines m ep (line :: rest) y =
          (Act.drawString m.left y line :: (flowLines m ep rest (y - 14)).1,
           (flowLines m ep rest (y - 14)).2))) ∧
    (∀ (lines : List Str) (y : Int),
      (∀ k : Nat, k < lines.length → m.bottom + 30 < y - 14 * k) →
      (flowLines m ep lines y).1 =
        lines.enum.map (fun p => Act.drawString m.left (y - 14 * (p.1 : Int)) p.2)) ∧
    (∀ (ep2 : Option Nat) (txt : Str) (rest : List (Option Nat × Str)) (y : Int),
      ((∃ tl, (indexFlow m ((ep2, txt) :: rest) y).1 = Act.showPage :: tl) ↔
        y ≤ m.bottom + 30) ∧
      (y ≤ m.bottom + 30 →
        indexFlow m ((ep2, txt) :: rest) y =
          (Act.showPage :: add_page_header_footer ep2 m ++
            Act.drawString m.left (pageH - m.top - 60) (epLine ep2) ::
              (indexFlow m rest (pageH - m.top - 60 - 14)).1,
           (indexFlow m rest (pageH - m.top - 60 - 14)).2)) ∧
      (m.bottom + 30 < y →
        indexFlow m ((ep2, txt) :: rest) y =
          (Act.drawString m.left y (epLine ep2) :: (indexFlow m rest (y - 14)).1,
           (indexFlow m rest (y - 14)).2))) := by
  refine ⟨?_, ?_, ?_⟩
  · intro line rest y
    refine ⟨⟨?_, ?_⟩, ?_, ?_⟩
    · rintro ⟨tl, htl⟩
      by_contra hy
      push_neg at hy
      rw [flowLines, if_neg (not_le.mpr hy)] at htl
      simp at htl
    · intro h
      rw [flowLines, if_pos h]
      exact ⟨_, rfl⟩
    · intro h
      rw [flowLines, if_pos h]
    · intro h
      rw [flowLines, if_neg (not_le.mpr h)]
  · intro lines y h
    rw [flowLines_noBreak m ep lines y h]
  · intro ep2 txt rest y
    refine ⟨⟨?_, ?_⟩, ?_, ?_⟩
    · rintro ⟨tl, htl⟩
      by_contra hy
      push_neg at hy
      rw [indexFlow, if_neg (not_le.mpr hy)] at htl
      simp at htl
    · intro h
      rw [indexFlow, if_pos h]
      exact ⟨_, rfl⟩
    · intro h
      rw [indexFlow, if_pos h]
    · intro h
      rw [indexFlow, if_neg (not_le.mpr h)]

/-- Witness for `page_flow_cursor_invariant`: the script's margins, a
break step at cursor 80, a no-break step at cursor 668, a two-line
no-break descent, and an index no-break step. -/
theorem page_flow_cursor_invariant_witness :
    ((80 : Int) ≤ m0.bottom + 30 ∧
      flowLines m0 (some 1) [['a']] 80 =
        (Act.showPage :: add_page_header_footer (some 1) m0 ++
          Act.drawString m0.left (pageH - m0.top - 60) ['a'] ::
            (flowLines m0 (some 1) [] (pageH - m0.top - 60 - 14)).1,
         (flowLines m0 (some 1) [] (pageH - m0.top - 60 - 14)).2)) ∧
    (m0.bottom + 30 < (668 : Int) ∧
      flowLines m0 (some 1) [['a']] 668 =
        (Act.drawString m0.left 668 ['a'] :: (flowLines m0 (some 1) [] (668 - 14)).1,
         (flowLines m0 (some 1) [] (668 - 14)).2)) ∧
    ((∀ k : Nat, k < ([['a'], ['b']] : List Str).length → m0.bottom + 30 < 668 - 14 * k) ∧
      (flowLines m0 (some 1) [['a'], ['b']] 668).1 =
        ([['a'], ['b']] : List Str).enum.map
          (fun p => Act.drawString m0.left (668 - 14 * (p.1 : Int)) p.2)) ∧
    (m0.bottom + 30 < (668 : Int) ∧
      indexFlow m0 [(some 1, ['a'])] 668 =
        (Act.drawString m0.left 668 (epLine (some 1)) :: (indexFlow m0 [] (668 - 14)).1,
         (indexFlow m0 [] (668 - 14)).2)) :=
  ⟨⟨by decide, ((page_flow_cursor_invariant m0 (some 1)).1 ['a'] [] 80).2.1 (by decide)⟩,
   ⟨by decide, ((page_flow_cursor_invariant m0 (some 1)).1 ['a'] [] 668).2.2 (by decide)⟩,
   ⟨by decide, (page_flow_cursor_invariant m0 (some 1)).2.1 [['a'], ['b']] 668 (by decide)⟩,
   ⟨by decide,
     ((page_flow_cursor_invariant m0 (some 1)).2.2 (some 1) ['a'] [] 668).2.2 (by decide)⟩⟩

/-- Claim C7: when an unprocessed episode's wrapped body has exactly one
line more than fits on its first page (`N` lines fit, the body has
`N + 1`), the body emission breaks the page exactly once and the single
overflow line is drawn first on the new page, at the top start offset
`pageH - top - 60`. -/
theorem single_overflow_page_break (cw : Char → Nat) (m : Margins) (processed : List Str)
    (ep : Option Nat) (txt : Str) (N : Nat) (front : List Str) (lastL : Str)
    (hskip : epStr ep ∉ processed)
    (hwrap : wrap_text txt (pageW - m.left - m.right) cw = front ++ [lastL])
    (hN : front.length = N)
    (hfit : ∀ k : Nat, k < N → m.bottom + 30 < pageH - m.top - 60 - 14 - 14 * k)
    (hover : pageH - m.top - 60 - 14 - 14 * (N : Int) ≤ m.bottom + 30) :
    bodyBlock cw m processed (ep, txt) =
      add_page_header_footer ep m ++
      Act.setFont fontBold 14 ::
      Act.drawString m.left (pageH - m.top - 60) (epLine ep) ::
      Act.setFont fontHelv 12 ::
      ((front.enum.map (fun p =>
          Act.drawString m.left (pageH - m.top - 60 - 14 - 14 * (p.1 : Int)) p.2) ++
        (Act.showPage :: add_page_header_footer ep m ++
          [Act.drawString m.left (pageH - m.top - 60) lastL])) ++
        [Act.appendLog (epStr ep), Act.showPage]) ∧
    (flowLines m ep (front ++ [lastL]) (pageH - m.top - 60 - 14)).1.countP isShowPage = 1 := by
  have hfit' : ∀ k : Nat, k < front.length → m.bottom + 30 < pageH - m.top - 60 - 14 - 14 * k := by
    intro k hk
    exact hfit k (hN ▸ hk)
  have hfront := flowLines_noBreak m ep front (pageH - m.top - 60 - 14) hfit'
  have hone1 : flowLines m ep [lastL] (pageH - m.top - 60 - 14 - 14 * (N : Int)) =
      (Act.showPage :: add_page_header_footer ep m ++
        [Act.drawString m.left (pageH - m.top - 60) lastL],
       pageH - m.top - 60 - 14) := by
    conv_lhs => rw [flowLines]
    rw [if_pos hover]
    simp [flowLines]
  have hflow : (flowLines m ep (front ++ [lastL]) (pageH - m.top - 60 - 14)).1 =
      front.enum.map (fun p =>
        Act.drawString m.left (pageH - m.top - 60 - 14 - 14 * (p.1 : Int)) p.2) ++
      (Act.showPage :: add_page_header_footer ep m ++
        [Act.drawString m.left (pageH - m.top - 60) lastL]) := by
    rw [flowLines_append m ep front [lastL] (pageH - m.top - 60 - 14)]
    simp only [hfront, hN, hone1]
  refine ⟨?_, ?_⟩
  · rw [bodyBlock]
    rw [if_neg hskip, hwrap, hflow]
  · rw [hflow, List.countP_append]
    have h1 : (front.enum.map (fun p =>
        Act.drawString m.left (pageH - m.top - 60 - 14 - 14 * (p.1 : Int)) p.2)).countP
          isShowPage = 0 := by
      rw [List.countP_eq_zero]
      intro a ha
      obtain ⟨p, _, rfl⟩ := List.mem_map.mp ha
      simp [isShowPage]
    rw [h1]
    simp [add_page_header_footer, isShowPage, List.countP_cons, List.countP_append]

/-- Witness for `single_overflow_page_break`: with the script's margins
a body page holds 42 lines below the title, and a 43-line body (42 blank
lines produce 43 wrapped empties) breaks exactly once. -/
theorem single_overflow_page_break_witness :
    (epStr (some 1) ∉ ([] : List Str)) ∧
    wrap_text (List.replicate 42 '\n') (pageW - m0.left - m0.right) cwOne =
      List.replicate 42 [] ++ [[]] ∧
    (List.replicate 42 ([] : Str)).length = 42 ∧
    (bodyBlock cwOne m0 [] (some 1, List.replicate 42 '\n') =
      add_page_header_footer (some 1) m0 ++
      Act.setFont fontBold 14 ::
      Act.drawString m0.left (pageH - m0.top - 60) (epLine (some 1)) ::
      Act.setFont fontHelv 12 ::
      (((List.replicate 42 ([] : Str)).enum.map (fun p =>
          Act.drawString m0.left (pageH - m0.top - 60 - 14 - 14 * (p.1 : Int)) p.2) ++
        (Act.showPage :: add_page_header_footer (some 1) m0 ++
          [Act.drawString m0.left (pageH - m0.top - 60) ([] : Str)])) ++
        [Act.appendLog (epStr (some 1)), Act.showPage]) ∧
      (flowLines m0 (some 1) (List.replicate 42 ([] : Str) ++ [[]])
        (pageH - m0.top - 60 - 14)).1.countP isShowPage = 1) :=
  ⟨by decide, by decide, by decide,
    single_overflow_page_break cwOne m0 [] (some 1) (List.replicate 42 '\n') 42
      (List.replicate 42 []) [] (by decide) (by decide) (by decide) (by decide) (by decide)⟩

/-- Recogniser for drawn-text actions. -/
def isDraw : Act → Bool
  | Act.drawString _ _ _ => true
  | _ => false

/-- The index loop never writes to the ledger. -/
theorem indexFlow_no_appendLog (m : Margins) (s : Str) :
    ∀ (ts : List (Option Nat × Str)) (y : Int), Act.appendLog s ∉ (indexFlow m ts y).1
  | [], y => by simp [indexFlow]
  | (ep, txt) :: rest, y => by
    have ih1 := indexFlow_no_appendLog m s rest (pageH - m.top - 60 - 14)
    have ih2 := indexFlow_no_appendLog m s rest (y - 14)
    rw [indexFlow]
    by_cases hbr : y ≤ m.bottom + 30
    · rw [if_pos hbr]
      intro hmem
      simp only [List.cons_append] at hmem
      rcases List.mem_cons.mp hmem with h | hmem
      · exact Act.noConfusion h
      rcases List.mem_append.mp hmem with h | hmem
      · simp [add_page_header_footer] at h
      rcases List.mem_cons.mp hmem with h | hmem
      · exact Act.noConfusion h
      · exact ih1 hmem
    · rw [if_neg hbr]
      intro hmem
      rcases List.mem_cons.mp hmem with h | hmem
      · exact Act.noConfusion h
      · exact ih2 hmem

/-- The body-line loop never writes to the ledger. -/
theorem flowLines_no_appendLog (m : Margins) (ep : Option Nat) (s : Str) :
    ∀ (lines : List Str) (y : Int), Act.appendLog s ∉ (flowLines m ep lines y).1
  | [], y => by simp [flowLines]
  | line :: rest, y => by
    have ih1 := flowLines_no_appendLog m ep s rest (pageH - m.top - 60 - 14)
    have ih2 := flowLines_no_appendLog m ep s rest (y - 14)
    rw [flowLines]
    by_cases hbr : y ≤ m.bottom + 30
    · rw [if_pos hbr]
      intro hmem
      simp only [List.cons_append] at hmem
      rcases List.mem_cons.mp hmem with h | hmem
      · exact Act.noConfusion h
      rcases List.mem_append.mp hmem with h | hmem
      · simp [add_page_header_footer] at h
      rcases List.mem_cons.mp hmem with h | hmem
      · exact Act.noConfusion h
      · exact ih1 hmem
    · rw [if_neg hbr]
      intro hmem
      rcases List.mem_cons.mp hmem with h | hmem
      · exact Act.noConfusion h
      · exact ih2 hmem

/-- A ledger append occurring in an episode's body block carries that
episode's identifier string. -/
theorem bodyBlock_appendLog (cw : Char → Nat) (m : Margins) (processed : List Str)
    (it : Option Nat × Str) (s : Str)
    (hmem : Act.appendLog s ∈ bodyBlock cw m processed it) : s = epStr it.1 := by
  rw [bodyBlock] at hmem
  by_cases hskip : epStr it.1 ∈ processed
  · rw [if_pos hskip] at hmem
    exact absurd hmem (List.not_mem_nil _)
  · rw [if_neg hskip] at hmem
    rcases List.mem_append.mp hmem with h | hmem
    · simp [add_page_header_footer] at h
    rcases List.mem_cons.mp hmem with h | hmem
    · exact Act.noConfusion h
    rcases List.mem_cons.mp hmem with h | hmem
    · exact Act.noConfusion h
    rcases List.mem_cons.mp hmem with h | hmem
    · exact Act.noConfusion h
    rcases List.mem_append.mp hmem with h | hmem
    · exact absurd h (flowLines_no_appendLog m it.1 s _ _)
    rcases List.mem_cons.mp hmem with h | hmem
    · simpa using h
    rcases List.mem_cons.mp hmem with h | hmem
    · exact Act.noConfusion h
    · exact absurd hmem (List.not_mem_nil _)

/-- If a list has the shape `C ++ (P ++ x :: S)` with `x` occurring in
neither `C` nor `P`, then any prefix (`take n`) containing `x` contains
all of `P`. -/
theorem mem_take_all_of_mem_take (C P S : List Act) (x : Act) (n : Nat)
    (hxC : x ∉ C) (hxP : x ∉ P)
    (hx : x ∈ (C ++ (P ++ x :: S)).take n) :
    ∀ a ∈ P, a ∈ (C ++ (P ++ x :: S)).take n := by
  have hlen : (C ++ P).length < n := by
    by_contra hle
    push_neg at hle
    have heq : (C ++ (P ++ x :: S)).take n = (C ++ P).take n := by
      rw [← List.append_assoc]
      exact List.take_append_of_le_length hle
    rw [heq] at hx
    have hx2 := List.take_subset n (C ++ P) hx
    rcases List.mem_append.mp hx2 with h | h
    · exact hxC h
    · exact hxP h
  obtain ⟨i, hi⟩ : ∃ i, n = (C ++ P).length + i := ⟨n - (C ++ P).length, by omega⟩
  intro a ha
  have heq : (C ++ (P ++ x :: S)).take n = (C ++ P) ++ (x :: S).take i := by
    rw [← List.append_assoc, hi]
    exact List.take_append i
  rw [heq]
  exact List.mem_append.mpr (Or.inl (List.mem_append.mpr (Or.inr ha)))

/-- Claim C3: in a run over pairwise-distinct episode identifiers, once
the ledger append for an episode appears in any prefix of the action
trace, every drawn line of that episode's body block is already in that
prefix: no crash point can leave an episode recorded as complete with
some of its lines undrawn. -/
theorem ledger_append_after_draws (cw : Char → Nat) (m : Margins)
    (processed : List Str) (ts : List (Option Nat × Str)) (ep : Option Nat) (txt : Str)
    (hmem : (ep, txt) ∈ ts)
    (hdist : (ts.map (fun it => epStr it.1)).Pairwise (· ≠ ·))
    (n : Nat)
    (hlog : Act.appendLog (epStr ep) ∈ (create_pdf cw ts m processed).take n) :
    ∀ a ∈ bodyBlock cw m processed (ep, txt), isDraw a = true →
      a ∈ (create_pdf cw ts m processed).take n := by
  by_cases hskip : epStr ep ∈ processed
  · intro a ha _
    rw [bodyBlock, if_pos hskip] at ha
    exact absurd ha (List.not_mem_nil a)
  · obtain ⟨ts1, ts2, rfl⟩ := List.append_of_mem hmem
    rw [List.map_append, List.map_cons] at hdist
    obtain ⟨hd1, hd2, hd12⟩ := List.pairwise_append.mp hdist
    have hne1 : ∀ it ∈ ts1, epStr it.1 ≠ epStr ep := by
      intro it hit
      exact hd12 (epStr it.1) (List.mem_map_of_mem _ hit) (epStr ep)
        (List.mem_cons_self _ _)
    have hne2 : ∀ it ∈ ts2, epStr ep ≠ epStr it.1 := by
      intro it hit
      exact (List.pairwise_cons.mp hd2).1 (epStr it.1) (List.mem_map_of_mem _ hit)
    have htrace : create_pdf cw (ts1 ++ (ep, txt) :: ts2) m processed =
        (Act.setFont fontBold 14 ::
          Act.drawString m.left (pageH - m.top - 60) indexTitle ::
          Act.setFont fontHelv 12 ::
          ((indexFlow m (ts1 ++ (ep, txt) :: ts2) (pageH - m.top - 60 - 16)).1 ++
            Act.showPage :: (ts1.map (bodyBlock cw m processed)).flatten)) ++
        ((add_page_header_footer ep m ++
          Act.setFont fontBold 14 ::
          Act.drawString m.left (pageH - m.top - 60) (epLine ep) ::
          Act.setFont fontHelv 12 ::
          (flowLines m ep (wrap_text txt (pageW - m.left - m.right) cw)
            (pageH - m.top - 60 - 14)).1) ++
         Act.appendLog (epStr ep) ::
           (Act.showPage ::
             ((ts2.map (bodyBlock cw m processed)).flatten ++ [Act.save]))) := by
      rw [create_pdf, List.map_append, List.map_cons, List.flatten_append,
        List.flatten_cons]
      rw [show bodyBlock cw m processed (ep, txt) =
          add_page_header_footer ep m ++
          Act.setFont fontBold 14 ::
          Act.drawString m.left (pageH - m.top - 60) (epLine ep) ::
          Act.setFont fontHelv 12 ::
          ((flowLines m ep (wrap_text txt (pageW - m.left - m.right) cw)
            (pageH - m.top - 60 - 14)).1 ++
            [Act.appendLog (epStr ep), Act.showPage]) from by
        rw [bodyBlock, if_neg hskip]]
      simp [List.append_assoc]
    have hxC : Act.appendLog (epStr ep) ∉
        (Act.setFont fontBold 14 ::
          Act.drawString m.left (pageH - m.top - 60) indexTitle ::
          Act.setFont fontHelv 12 ::
          ((indexFlow m (ts1 ++ (ep, txt) :: ts2) (pageH - m.top - 60 - 16)).1 ++
            Act.showPage :: (ts1.map (bodyBlock cw m processed)).flatten)) := by
      intro hc
      rcases List.mem_cons.mp hc with h | hc
      · exact Act.noConfusion h
      rcases List.mem_cons.mp hc with h | hc
      · exact Act.noConfusion h
      rcases List.mem_cons.mp hc with h | hc
      · exact Act.noConfusion h
      rcases List.mem_append.mp hc with h | hc
      · exact indexFlow_no_appendLog m (epStr ep) _ _ h
      rcases List.mem_cons.mp hc with h | hc
      · exact Act.noConfusion h
      obtain ⟨l, hl, hal⟩ := List.mem_flatten.mp hc
      obtain ⟨it, hit, rfl⟩ := List.mem_map.mp hl
      exact hne1 it hit (bodyBlock_appendLog cw m processed it (epStr ep) hal).symm
    have hxP : Act.appendLog (epStr ep) ∉
        (add_page_header_footer ep m ++
          Act.setFont fontBold 14 ::
          Act.drawString m.left (pageH - m.top - 60) (epLine ep) ::
          Act.setFont fontHelv 12 ::
          (flowLines m ep (wrap_text txt (pageW - m.left - m.right) cw)
            (pageH - m.top - 60 - 14)).1) := by
      intro hc
      rcases List.mem_append.mp hc with h | hc
      · simp [add_page_header_footer] at h
      rcases List.mem_cons.mp hc with h | hc
      · exact Act.noConfusion h
      rcases List.mem_cons.mp hc with h | hc
      · exact Act.noConfusion h
      rcases List.mem_cons.mp hc with h | hc
      · exact Act.noConfusion h
      exact flowLines_no_appendLog m ep (epStr ep) _ _ hc
    rw [htrace] at hlog ⊢
    intro a ha hdraw
    have hbody : bodyBlock cw m processed (ep, txt) =
        (add_page_header_footer ep m ++
          Act.setFont fontBold 14 ::
          Act.drawString m.left (pageH - m.top - 60) (epLine ep) ::
          Act.setFont fontHelv 12 ::
          (flowLines m ep (wrap_text txt (pageW - m.left - m.right) cw)
            (pageH - m.top - 60 - 14)).1) ++
        [Act.appendLog (epStr ep), Act.showPage] := by
      rw [bodyBlock, if_neg hskip]
      simp [List.append_assoc]
    rw [hbody] at ha
    rcases List.mem_append.mp ha with haP | hax
    · exact mem_take_all_of_mem_take _ _ _ _ n hxC hxP hlog a haP
    · rcases List.mem_cons.mp hax with h | hax
      · subst h
        simp [isDraw] at hdraw
      rcases List.mem_cons.mp hax with h | hax
      · subst h
        simp [isDraw] at hdraw
      · exact absurd hax (List.not_mem_nil a)

/-- Witness for `ledger_append_after_draws`: a one-episode run with an
empty ledger; the title draw of episode 1 is in any prefix containing
its ledger append. -/
theorem ledger_append_after_draws_witness :
    (((some 1 : Option Nat), ['h', 'i']) ∈ [((some 1 : Option Nat), ['h', 'i'])]) ∧
    (([((some 1 : Option Nat), ['h', 'i'])].map (fun it => epStr it.1)).Pairwise (· ≠ ·)) ∧
    (Act.appendLog (epStr (some 1)) ∈
      (create_pdf cwOne [(some 1, ['h', 'i'])] m0 []).take 100) ∧
    (Act.drawString m0.left (pageH - m0.top - 60) (epLine (some 1)) ∈
      (create_pdf cwOne [(some 1, ['h', 'i'])] m0 []).take 100) :=
  ⟨by decide, by decide, by decide,
    ledger_append_after_draws cwOne m0 [] [(some 1, ['h', 'i'])] (some 1) ['h', 'i']
      (by decide) (by decide) 100 (by decide)
      (Act.drawString m0.left (pageH - m0.top - 60) (epLine (some 1)))
      (by decide) (by decide)⟩

/-- Recogniser for "this action draws exactly the string `t`". -/
def drawsText : Act → Str → Bool
  | Act.drawString _ _ s, t => s == t
  | _, _ => false

/-- Claim C2, as stated, is false: an episode whose identifier is in the
ledger at the start of the run is dropped while the transcript list is
built (source lines 136-138), before `create_pdf` runs, so NO index line
`"Episode {identifier}"` is emitted for it.  Concretely: with `5.txt` on
disk and `"5"` in the ledger, the assembled transcript list is empty and
the run's whole trace draws the string `"Episode 5"` nowhere. -/
theorem ledger_item_not_indexed_counterexample :
    buildTranscripts [("5.txt".data, ['h', 'i'])] [['5']] = [] ∧
    ((create_pdf cwOne (buildTranscripts [("5.txt".data, ['h', 'i'])] [['5']]) m0
      [['5']]).all (fun a => !(drawsText a (epLine (some 5))))) = true := by
  decide

/-- Every transcript handed to the index loop gets an
`"Episode {identifier}"` entry drawn at the left margin. -/
theorem indexFlow_draws (m : Margins) :
    ∀ (ts : List (Option Nat × Str)) (y : Int) (it : Option Nat × Str), it ∈ ts →
      ∃ yd, Act.drawString m.left yd (epLine it.1) ∈ (indexFlow m ts y).1
  | [], _, it, hit => absurd hit (List.not_mem_nil _)
  | (ep0, t0) :: rest, y, it, hit => by
    rw [indexFlow]
    by_cases hbr : y ≤ m.bottom + 30
    · rw [if_pos hbr]
      rcases List.mem_cons.mp hit with rfl | hit'
      · exact ⟨pageH - m.top - 60,
          List.mem_cons_of_mem _ (List.mem_append.mpr (Or.inr (List.mem_cons_self _ _)))⟩
      · obtain ⟨yd, hyd⟩ := indexFlow_draws m rest (pageH - m.top - 60 - 14) it hit'
        exact ⟨yd, List.mem_cons_of_mem _
          (List.mem_append.mpr (Or.inr (List.mem_cons_of_mem _ hyd)))⟩
    · rw [if_neg hbr]
      rcases List.mem_cons.mp hit with rfl | hit'
      · exact ⟨y, List.mem_cons_self _ _⟩
      · obtain ⟨yd, hyd⟩ := indexFlow_draws m rest (y - 14) it hit'
        exact ⟨yd, List.mem_cons_of_mem _ hyd⟩

/-- Claim C2 (amended): an episode listed in the ledger at the start of
a run is invisible in that run's entire output, index line included,
because the transcript list is filtered before PDF creation (first
conjunct); within `create_pdf`, every transcript it does receive gets an
index entry regardless of ledger state (second conjunct), and a
transcript whose identifier is in the ledger contributes no body-phase
actions at all — no header, no title, no body lines (third conjunct). -/
theorem ledger_item_invisible :
    (∀ (files : List (Str × Str)) (processed : List Str) (it : Option Nat × Str),
      it ∈ buildTranscripts files processed → epStr it.1 ∉ processed) ∧
    (∀ (m : Margins) (ts : List (Option Nat × Str)) (y : Int) (it : Option Nat × Str),
      it ∈ ts → ∃ yd, Act.drawString m.left yd (epLine it.1) ∈ (indexFlow m ts y).1) ∧
    (∀ (cw : Char → Nat) (m : Margins) (processed : List Str) (it : Option Nat × Str),
      epStr it.1 ∈ processed → bodyBlock cw m processed it = []) := by
  refine ⟨?_, ?_, ?_⟩
  · intro files processed it hit
    rw [buildTranscripts] at hit
    obtain ⟨f, _, heq⟩ := List.mem_filterMap.mp hit
    by_cases hin : epStr (extract_episode_number f.1) ∈ processed
    · rw [if_pos hin] at heq
      exact Option.noConfusion heq
    · rw [if_neg hin] at heq
      obtain rfl := Option.some.inj heq
      exact hin
  · intro m ts y it hit
    exact indexFlow_draws m ts y it hit
  · intro cw m processed it h
    rw [bodyBlock, if_pos h]

/-- Witness for `ledger_item_invisible`: episode 5 with an empty ledger
passes the filter; a received transcript gets an index entry; a
ledger-listed transcript's body block is empty. -/
theorem ledger_item_invisible_witness :
    (epStr ((some 5 : Option Nat), ['h', 'i']).1 ∉ ([] : List Str)) ∧
    (∃ yd, Act.drawString m0.left yd (epLine ((some 5 : Option Nat), ['h', 'i']).1) ∈
      (indexFlow m0 [((some 5 : Option Nat), ['h', 'i'])] 668).1) ∧
    bodyBlock cwOne m0 [['5']] ((some 5 : Option Nat), ['h', 'i']) = [] :=
  ⟨ledger_item_invisible.1 [("5.txt".data, ['h', 'i'])] [] ((some 5), ['h', 'i'])
      (by decide),
   ledger_item_invisible.2.1 m0 [((some 5), ['h', 'i'])] 668 ((some 5), ['h', 'i'])
      (by decide),
   ledger_item_invisible.2.2 cwOne m0 [['5']] ((some 5), ['h', 'i']) (by decide)⟩

/-- Claim C10: when the ledger file does not exist,
`get_processed_episodes` returns the empty set of completed identifiers
(`Except.ok []`) instead of an I/O error: a missing ledger means "no
episodes completed", not a fatal read failure. -/
theorem missing_ledger_empty_set (fs : FileSys) (p : Str) (h : fs p = none) :
    get_processed_episodes fs p = Except.ok [] := by
  rw [get_processed_episodes, if_neg (by simp [os_path_exists, h])]

/-- Witness for `missing_ledger_empty_set`: the empty file system. -/
theorem missing_ledger_empty_set_witness :
    ((fun _ => none : FileSys) ['a']) = none ∧
    get_processed_episodes (fun _ => none) ['a'] = Except.ok [] :=
  ⟨rfl, missing_ledger_empty_set (fun _ => none) ['a'] rfl⟩
